import Mathlib

/-!
Verification of the growable ring buffer in `src/decoding/ringbuffer.rs`
(the output-window buffer of the streaming decompression pipeline).

The Rust struct `RingBuffer { buf: *mut u8, cap, head, tail }` is embedded
as a Lean structure whose physical storage is a total function `Nat → Nat`:
`buf i` is the byte stored at physical offset `i` of the allocation.
Offsets at or beyond `cap` lie outside the allocation; the model gives a
freshly allocated block the default value `0` everywhere, standing for
whatever bytes happen to sit beyond the allocation (reading them is a heap
out-of-bounds read in the real program).

Machine integers (`usize`) are embedded as `Nat`; no arithmetic in the
claims approaches `usize` overflow, and the source's
`assert!(usize::BITS >= 64 || ...)` is vacuous on the 64-bit targets the
model assumes.  `debug_assert!` lines are compiled out in release builds
and are therefore not part of the embedded semantics.  Fallible operations
(Rust panics) are embedded with `Option`/`Except`: `drain`'s
`(head + amount) % cap` panics exactly when `cap = 0` (integer remainder
by zero), and `extend_from_within` panics on its explicit bounds check.
-/

/-- One byte-copy within the same allocation, the embedding of
`ptr.add(dst).copy_from_nonoverlapping(ptr.add(src), n)`:
positions `dst ≤ i < dst + n` receive the byte at `src + (i - dst)`,
all other positions keep their old byte. -/
def copyWithin (b : Nat → Nat) (dst src n : Nat) : Nat → Nat :=
  fun i => if dst ≤ i ∧ i < dst + n then b (src + (i - dst)) else b i

/-- Copying an external byte slice into the allocation, the embedding of
`ptr.add(dst).copy_from_nonoverlapping(data_ptr, data.len())`. -/
def writeList (b : Nat → Nat) (dst : Nat) (data : List Nat) : Nat → Nat :=
  fun i => if dst ≤ i ∧ i < dst + data.length then data.getD (i - dst) 0 else b i

/-- Embedding of `usize::next_power_of_two` (as called in
`reserve_amortized`): the least power of two that is `≥ n`, and `1` for
`n = 0`.  Written with structural recursion so that the kernel can
evaluate it; the lemmas `le_nextPow2`, `nextPow2_isPow2` and
`nextPow2_le_pow2` below pin down that it is exactly the
round-up-to-a-power-of-two function. -/
def nextPow2 : Nat → Nat
  | 0 => 1
  | n + 1 => if n + 1 ≤ nextPow2 n then nextPow2 n else 2 * nextPow2 n

/-- `pub struct RingBuffer { buf: *mut u8, cap: usize, head: usize, tail: usize }` -/
structure RingBuffer where
  buf : Nat → Nat
  cap : Nat
  head : Nat
  tail : Nat

namespace RingBuffer

/-- `RingBuffer::new()`: null buffer, `cap = head = tail = 0`. -/
def new : RingBuffer := ⟨fun _ => 0, 0, 0, 0⟩

/-- `data_slice_lengths`: `if tail >= head { (tail - head, 0) } else { (cap - head, tail) }`. -/
def dataSliceLengths (rb : RingBuffer) : Nat × Nat :=
  if rb.tail ≥ rb.head then (rb.tail - rb.head, 0) else (rb.cap - rb.head, rb.tail)

/-- `len()`: sum of the two data-slice lengths. -/
def len (rb : RingBuffer) : Nat :=
  rb.dataSliceLengths.1 + rb.dataSliceLengths.2

/-- `clear()`: `head = 0; tail = 0`. -/
def clear (rb : RingBuffer) : RingBuffer :=
  { rb with head := 0, tail := 0 }

/-- `is_empty()`: `head == tail`. -/
def isEmpty (rb : RingBuffer) : Bool :=
  rb.head == rb.tail

/-- `as_slices()`: the two live spans, `(buf+head, len_after_head)` and
`(buf+0, len_to_tail)`, embedded as lists of bytes. -/
def asSlices (rb : RingBuffer) : List Nat × List Nat :=
  ((List.range rb.dataSliceLengths.1).map (fun i => rb.buf (rb.head + i)),
   (List.range rb.dataSliceLengths.2).map (fun i => rb.buf i))

/-- The logical content of the buffer: concatenation of the two read-view
spans, in logical order. -/
def contents (rb : RingBuffer) : List Nat :=
  rb.asSlices.1 ++ rb.asSlices.2

/-- `free_slice_lengths`: returns `(len_to_head, len_after_tail)`;
`if tail < head { (0, head - tail) } else { (head, cap - tail) }`. -/
def freeSliceLengths (rb : RingBuffer) : Nat × Nat :=
  if rb.tail < rb.head then (0, rb.head - rb.tail) else (rb.head, rb.cap - rb.tail)

/-- `reserve_amortized(amount)`:
`new_cap = max(cap * 2, (cap + amount + 1).next_power_of_two())`;
a fresh block is allocated (uninitialized, modelled as all `0`); when
`cap > 0` the two live spans are copied to its front in logical order and
`head`/`tail` are reset to `0` / the old logical length; when `cap = 0`
only `buf`/`cap` are replaced.  (The source's `assert!(usize::BITS >= 64
|| new_cap < isize::MAX as usize)` always passes on the assumed 64-bit
target and the `debug_assert!(amount > 0)` is release-compiled out.) -/
def reserveAmortized (rb : RingBuffer) (amount : Nat) : RingBuffer :=
  let newCap := max (rb.cap * 2) (nextPow2 (rb.cap + amount + 1))
  if 0 < rb.cap then
    let l := rb.dataSliceLengths
    let newBuf : Nat → Nat := fun i =>
      if i < l.1 then rb.buf (rb.head + i)
      else if i < l.1 + l.2 then rb.buf (i - l.1)
      else 0
    { buf := newBuf, cap := newCap, head := 0, tail := l.1 + l.2 }
  else
    { rb with buf := fun _ => 0, cap := newCap }

/-- `reserve(amount)`: `if cap - len() > amount { return; } reserve_amortized(amount)`. -/
def reserve (rb : RingBuffer) (amount : Nat) : RingBuffer :=
  if rb.cap - rb.len > amount then rb else rb.reserveAmortized amount

/-- The body of `extend(data)` after its opening `self.reserve(len)`
call: recompute the free spans `(f1, f2)` with `f1` at `tail`, copy the
first `in_f1 = min(len, f1_len)` bytes of `data` into `f1`, the
remaining `in_f2 = len - in_f1` bytes into `f2` (physical offset `0`),
and advance `tail = (tail + len) % cap`.  (The `in_f1 > 0` / `in_f2 > 0`
guards mirror the source's.) -/
def extendWrite (rb : RingBuffer) (data : List Nat) : RingBuffer :=
  let dlen := data.length
  let free := rb.freeSliceLengths
  let f1Len := free.2
  let inF1 := min dlen f1Len
  let inF2 := dlen - inF1
  let buf1 := if 0 < inF1 then writeList rb.buf rb.tail (data.take inF1) else rb.buf
  let buf2 := if 0 < inF2 then writeList buf1 0 (data.drop inF1) else buf1
  { rb with buf := buf2, tail := (rb.tail + dlen) % rb.cap }

/-- `extend(data)`: `self.reserve(data.len())`, then the free-span copy
`extendWrite`. -/
def extend (rb0 : RingBuffer) (data : List Nat) : RingBuffer :=
  (rb0.reserve data.length).extendWrite data

/-- `drain(amount)`: `amount = min(amount, len()); head = (head + amount) % cap`.
The `%` operation on `usize` panics when `cap = 0` (remainder by zero),
so the embedding returns `none` exactly in that case. -/
def drain (rb : RingBuffer) (amount : Nat) : Option RingBuffer :=
  if rb.cap = 0 then none
  else some { rb with head := (rb.head + min amount rb.len) % rb.cap }

/-- `extend_from_within_unchecked(start, len)`: the four-branch raw copy,
translated branch for branch —
`head < tail`: copy `min(len, cap - tail)` bytes from `head + start` to
`tail`, wrap the remainder to offset `0`;
`head ≥ tail`, `head + start > cap`: copy `len` bytes from
`(head + start) % cap` to `tail`;
`head ≥ tail`, otherwise: copy `min(len, cap - head)` bytes from
`head + start` to `tail`, then the remainder from offset `0` to
`tail + after_head`.  Finally `tail = (tail + len) % cap`. -/
def extendFromWithinUnchecked (rb : RingBuffer) (start len : Nat) : RingBuffer :=
  let newBuf :=
    if rb.head < rb.tail then
      let afterTail := min len (rb.cap - rb.tail)
      let b1 := copyWithin rb.buf rb.tail (rb.head + start) afterTail
      if afterTail < len then
        copyWithin b1 0 (rb.head + start + afterTail) (len - afterTail)
      else b1
    else
      if rb.head + start > rb.cap then
        copyWithin rb.buf rb.tail ((rb.head + start) % rb.cap) len
      else
        let afterHead := min len (rb.cap - rb.head)
        let b1 := copyWithin rb.buf rb.tail (rb.head + start) afterHead
        if afterHead < len then
          copyWithin b1 (rb.tail + afterHead) 0 (len - afterHead)
        else b1
  { rb with buf := newBuf, tail := (rb.tail + len) % rb.cap }

/-- `extend_from_within(start, len)`: bounds check
(`if start + len > self.len() { ring_buffer_out_of_bounds(); }` — a panic,
embedded as `Except.error` carrying the state observable at the panic,
which is the untouched input state), then `reserve(len)` and the
unchecked copy. -/
def extendFromWithin (rb : RingBuffer) (start len : Nat) :
    Except RingBuffer RingBuffer :=
  if start + len > rb.len then Except.error rb
  else Except.ok ((rb.reserve len).extendFromWithinUnchecked start len)

/-- The cursor invariant maintained by every operation: a capacity-0
buffer has both cursors at 0; a positive-capacity buffer keeps both
cursors strictly below `cap` and the logical length strictly below `cap`
(one byte of slack, so full is never confused with empty). -/
def Inv (rb : RingBuffer) : Prop :=
  (rb.cap = 0 → rb.head = 0 ∧ rb.tail = 0) ∧
  (0 < rb.cap → rb.head < rb.cap ∧ rb.tail < rb.cap ∧ rb.len < rb.cap)

end RingBuffer

/-- A call trace element: `extend` with a byte list, or `drain` with an amount. -/
inductive Op where
  | ext : List Nat → Op
  | drn : Nat → Op

/-- Run one operation (propagating a `drain` panic). -/
def RingBuffer.applyOp (rb : RingBuffer) : Op → Option RingBuffer
  | Op.ext d => some (rb.extend d)
  | Op.drn n => rb.drain n

/-- Run a trace of operations from a state. -/
def RingBuffer.run (rb : RingBuffer) : List Op → Option RingBuffer
  | [] => some rb
  | op :: ops =>
    match rb.applyOp op with
    | none => none
    | some rb2 => rb2.run ops

/-- The unbounded-queue reference model of a trace: `extend` appends,
`drain n` drops the `n` oldest bytes. -/
def modelRun (m : List Nat) : List Op → List Nat
  | [] => m
  | Op.ext d :: ops => modelRun (m ++ d) ops
  | Op.drn n :: ops => modelRun (List.drop n m) ops

/-- Drain amounts stay within the current logical length along the trace. -/
def validOps (m : List Nat) : List Op → Prop
  | [] => True
  | Op.ext d :: ops => validOps (m ++ d) ops
  | Op.drn n :: ops => n ≤ m.length ∧ validOps (List.drop n m) ops

/-! ### Pointwise evaluation of the two copy primitives -/

theorem writeList_in (b : Nat → Nat) (dst : Nat) (data : List Nat) (i : Nat)
    (h1 : dst ≤ i) (h2 : i < dst + data.length) :
    writeList b dst data i = data.getD (i - dst) 0 := by
  simp [writeList, h1, h2]

theorem writeList_out (b : Nat → Nat) (dst : Nat) (data : List Nat) (i : Nat)
    (h : i < dst ∨ dst + data.length ≤ i) :
    writeList b dst data i = b i := by
  unfold writeList
  rw [if_neg]
  omega

theorem copyWithin_in (b : Nat → Nat) (dst src n i : Nat)
    (h1 : dst ≤ i) (h2 : i < dst + n) :
    copyWithin b dst src n i = b (src + (i - dst)) := by
  simp [copyWithin, h1, h2]

theorem copyWithin_out (b : Nat → Nat) (dst src n i : Nat)
    (h : i < dst ∨ dst + n ≤ i) :
    copyWithin b dst src n i = b i := by
  unfold copyWithin
  rw [if_neg]
  omega

/-! ### `nextPow2` is exactly round-up-to-a-power-of-two -/

theorem nextPow2_pos (n : Nat) : 1 ≤ nextPow2 n := by
  induction n with
  | zero => simp [nextPow2]
  | succ n ih => rw [nextPow2]; split <;> omega

theorem le_nextPow2 (n : Nat) : n ≤ nextPow2 n := by
  induction n with
  | zero => simp [nextPow2]
  | succ n ih =>
    have := nextPow2_pos n
    rw [nextPow2]; split <;> omega

theorem nextPow2_isPow2 (n : Nat) : ∃ k, nextPow2 n = 2 ^ k := by
  induction n with
  | zero => exact ⟨0, rfl⟩
  | succ n ih =>
    obtain ⟨k, hk⟩ := ih
    rw [nextPow2]; split
    · exact ⟨k, hk⟩
    · exact ⟨k + 1, by rw [hk]; ring⟩

theorem nextPow2_le_pow2 (n k : Nat) (h : n ≤ 2 ^ k) : nextPow2 n ≤ 2 ^ k := by
  induction n with
  | zero => simpa [nextPow2] using Nat.one_le_two_pow
  | succ n ih =>
    rw [nextPow2]; split
    · exact ih (by omega)
    · rename_i hlt
      obtain ⟨j, hj⟩ := nextPow2_isPow2 n
      have hjk : j < k := by
        apply (Nat.pow_lt_pow_iff_right (by norm_num : 1 < 2)).mp
        calc (2:Nat) ^ j = nextPow2 n := hj.symm
          _ < n + 1 := by omega
          _ ≤ 2 ^ k := h
      calc 2 * nextPow2 n = 2 ^ (j + 1) := by rw [hj]; ring
        _ ≤ 2 ^ k := Nat.pow_le_pow_right (by norm_num) hjk

/-! ### Modular-arithmetic helpers for the cursor algebra -/

theorem mod_two_cases (a c : Nat) (h : a < 2 * c) :
    a % c = if a < c then a else a - c := by
  split
  · exact Nat.mod_eq_of_lt (by assumption)
  · rw [Nat.mod_eq_sub_mod (by omega)]
    exact Nat.mod_eq_of_lt (by omega)

namespace RingBuffer

theorem len_eq_if (rb : RingBuffer) :
    rb.len = if rb.tail ≥ rb.head then rb.tail - rb.head else rb.cap - rb.head + rb.tail := by
  rw [len, dataSliceLengths]
  split <;> simp

theorem len_le_cap (rb : RingBuffer) (hinv : rb.Inv) : rb.len ≤ rb.cap := by
  obtain ⟨hzero, hpos⟩ := hinv
  rcases Nat.eq_zero_or_pos rb.cap with hc | hc
  · obtain ⟨hh, ht⟩ := hzero hc
    rw [len_eq_if, hh, ht]
    simp [hc]
  · exact Nat.le_of_lt (hpos hc).2.2

theorem length_contents (rb : RingBuffer) : rb.contents.length = rb.len := by
  simp [contents, asSlices, len]

theorem contents_eq_map (rb : RingBuffer) (hinv : rb.Inv) :
    rb.contents = (List.range rb.len).map (fun j => rb.buf ((rb.head + j) % rb.cap)) := by
  obtain ⟨hzero, hpos⟩ := hinv
  have hsplit : List.range rb.len =
      List.range rb.dataSliceLengths.1 ++
        (List.range rb.dataSliceLengths.2).map (rb.dataSliceLengths.1 + ·) :=
    List.range_add rb.dataSliceLengths.1 rb.dataSliceLengths.2
  rw [contents, hsplit, List.map_append, List.map_map]
  rcases Nat.eq_zero_or_pos rb.cap with hc | hc
  · obtain ⟨hh, ht⟩ := hzero hc
    simp [asSlices, dataSliceLengths, hh, ht]
  · obtain ⟨hh, ht, hlen⟩ := hpos hc
    rcases Nat.lt_or_ge rb.tail rb.head with hht | hht
    · -- wrapped live region: dataSliceLengths = (cap - head, tail)
      have hd : rb.dataSliceLengths = (rb.cap - rb.head, rb.tail) := by
        rw [dataSliceLengths, if_neg (by omega)]
      rw [asSlices, hd]
      congr 1
      · apply List.map_congr_left
        intro i hi
        rw [List.mem_range] at hi
        rw [Nat.mod_eq_of_lt (by omega)]
      · apply List.map_congr_left
        intro i hi
        rw [List.mem_range] at hi
        simp only [Function.comp]
        have h1 : rb.head + (rb.cap - rb.head + i) = rb.cap + i := by omega
        rw [h1, Nat.add_mod_left, Nat.mod_eq_of_lt (by omega)]
    · -- contiguous live region: dataSliceLengths = (tail - head, 0)
      have hd : rb.dataSliceLengths = (rb.tail - rb.head, 0) := by
        rw [dataSliceLengths, if_pos (by omega)]
      rw [asSlices, hd]
      simp only [List.range_zero, List.map_nil, List.append_nil]
      apply List.map_congr_left
      intro i hi
      rw [List.mem_range] at hi
      rw [Nat.mod_eq_of_lt (by omega)]

theorem contents_getElem (rb : RingBuffer) (hinv : rb.Inv) (j : Nat) (hj : j < rb.contents.length) :
    rb.contents[j] = rb.buf ((rb.head + j) % rb.cap) := by
  have h := contents_eq_map rb hinv
  have hj' : j < rb.len := by rw [← length_contents]; exact hj
  rw [List.getElem_of_eq h hj]
  rw [List.getElem_map]
  rw [List.getElem_range]

end RingBuffer

/-- Advancing `tail` by `L` (mod `cap`) grows the logical length by `L`,
as long as one byte of slack remains. -/
theorem tail_advance_mod (c h t L n : Nat) (hh : h < c) (ht : t < c)
    (hn : n = if t ≥ h then t - h else c - h + t) (hL : n + L < c) :
    (if (t + L) % c ≥ h then (t + L) % c - h else c - h + (t + L) % c) = n + L := by
  rcases Nat.lt_or_ge (t + L) c with h1 | h1
  · rw [Nat.mod_eq_of_lt h1]
    split at hn <;> split <;> omega
  · have h2 : (t + L) % c = t + L - c := by
      rw [Nat.mod_eq_sub_mod h1]
      exact Nat.mod_eq_of_lt (by split at hn <;> omega)
    rw [h2]
    split at hn <;> split <;> omega

/-- Advancing `head` by `m ≤ len` (mod `cap`) shrinks the logical length by `m`. -/
theorem head_advance_mod (c h t m n : Nat) (hh : h < c) (ht : t < c)
    (hn : n = if t ≥ h then t - h else c - h + t) (hm : m ≤ n) :
    (if t ≥ (h + m) % c then t - (h + m) % c else c - (h + m) % c + t) = n - m := by
  rcases Nat.lt_or_ge (h + m) c with h1 | h1
  · rw [Nat.mod_eq_of_lt h1]
    split at hn <;> split <;> omega
  · have h2 : (h + m) % c = h + m - c := by
      rw [Nat.mod_eq_sub_mod h1]
      exact Nat.mod_eq_of_lt (by split at hn <;> omega)
    rw [h2]
    split at hn <;> split <;> omega

namespace RingBuffer

/-- `head + len` lands (mod `cap`) exactly on `tail`. -/
theorem head_add_len (rb : RingBuffer) (hh : rb.head < rb.cap) (ht : rb.tail < rb.cap) :
    (rb.head + rb.len) % rb.cap = rb.tail := by
  rw [len_eq_if]
  split
  · have h1 : rb.head + (rb.tail - rb.head) = rb.tail := by omega
    rw [h1, Nat.mod_eq_of_lt ht]
  · have h1 : rb.head + (rb.cap - rb.head + rb.tail) = rb.cap + rb.tail := by omega
    rw [h1, Nat.add_mod_left, Nat.mod_eq_of_lt ht]

/-- A state that differs from `rb` only in `buf` and in `tail`, the
latter advanced by `L` mod `cap`, has logical length `rb.len + L`. -/
theorem len_of_tail_advance (rb rb2 : RingBuffer) (L : Nat)
    (hcap : rb2.cap = rb.cap) (hhead : rb2.head = rb.head)
    (htail : rb2.tail = (rb.tail + L) % rb.cap)
    (hh : rb.head < rb.cap) (ht : rb.tail < rb.cap) (hL : rb.len + L < rb.cap) :
    rb2.len = rb.len + L := by
  rw [len_eq_if, hcap, hhead, htail]
  exact tail_advance_mod rb.cap rb.head rb.tail L rb.len hh ht (len_eq_if rb) hL

/-! ### `reserve_amortized` and `reserve` -/

theorem reserveAmortized_eq_pos (rb : RingBuffer) (a : Nat) (hc : 0 < rb.cap) :
    rb.reserveAmortized a =
      RingBuffer.mk
        (fun i =>
          if i < rb.dataSliceLengths.1 then rb.buf (rb.head + i)
          else if i < rb.dataSliceLengths.1 + rb.dataSliceLengths.2 then
            rb.buf (i - rb.dataSliceLengths.1)
          else 0)
        (max (rb.cap * 2) (nextPow2 (rb.cap + a + 1))) 0
        (rb.dataSliceLengths.1 + rb.dataSliceLengths.2) := by
  rw [reserveAmortized]
  simp only [if_pos hc]

theorem reserveAmortized_eq_zero (rb : RingBuffer) (a : Nat) (hc : rb.cap = 0) :
    rb.reserveAmortized a =
      { rb with buf := fun _ => 0, cap := max (rb.cap * 2) (nextPow2 (rb.cap + a + 1)) } := by
  rw [reserveAmortized]
  simp only [if_neg (by omega : ¬ 0 < rb.cap)]

theorem cap_reserveAmortized (rb : RingBuffer) (a : Nat) :
    (rb.reserveAmortized a).cap = max (rb.cap * 2) (nextPow2 (rb.cap + a + 1)) := by
  rcases Nat.eq_zero_or_pos rb.cap with hc | hc
  · rw [reserveAmortized_eq_zero rb a hc]
  · rw [reserveAmortized_eq_pos rb a hc]

theorem cap_le_reserveAmortized (rb : RingBuffer) (a : Nat) :
    rb.cap + a + 1 ≤ (rb.reserveAmortized a).cap := by
  have h1 : rb.cap + a + 1 ≤ nextPow2 (rb.cap + a + 1) := le_nextPow2 _
  have h2 : nextPow2 (rb.cap + a + 1) ≤ max (rb.cap * 2) (nextPow2 (rb.cap + a + 1)) :=
    le_max_right _ _
  rw [cap_reserveAmortized]
  omega

/-- Everything `reserve_amortized` guarantees: invariant, contents
unchanged, length unchanged, `head = 0`, `tail = old len`, and the
growth formula for the new capacity. -/
theorem reserveAmortized_spec (rb : RingBuffer) (a : Nat) (hinv : rb.Inv) :
    (rb.reserveAmortized a).Inv ∧
    (rb.reserveAmortized a).contents = rb.contents ∧
    (rb.reserveAmortized a).len = rb.len ∧
    (rb.reserveAmortized a).head = 0 ∧
    (rb.reserveAmortized a).tail = rb.len := by
  have hbig := cap_le_reserveAmortized rb a
  have hlen_le := len_le_cap rb hinv
  rcases Nat.eq_zero_or_pos rb.cap with hc | hc
  · -- cap = 0: head = tail = 0, nothing to copy
    obtain ⟨hh, ht⟩ := hinv.1 hc
    have hlen : rb.len = 0 := by rw [len_eq_if, hh, ht]; simp
    have hcap2 : (rb.reserveAmortized a).cap = max (rb.cap * 2) (nextPow2 (rb.cap + a + 1)) :=
      cap_reserveAmortized rb a
    have hhead2 : (rb.reserveAmortized a).head = rb.head := by
      rw [reserveAmortized_eq_zero rb a hc]
    have htail2 : (rb.reserveAmortized a).tail = rb.tail := by
      rw [reserveAmortized_eq_zero rb a hc]
    have hlen2 : (rb.reserveAmortized a).len = 0 := by
      rw [len_eq_if, hhead2, htail2, hh, ht]
      simp
    refine ⟨⟨fun h => by omega, fun _ => by omega⟩, ?_, by omega, by omega, by omega⟩
    have hd2 : (rb.reserveAmortized a).dataSliceLengths = (0, 0) := by
      rw [dataSliceLengths, hhead2, htail2, hh, ht]
      simp
    have hd : rb.dataSliceLengths = (0, 0) := by
      rw [dataSliceLengths, hh, ht]
      simp
    rw [contents, contents, asSlices, asSlices, hd, hd2]
    simp
  · -- cap > 0: live spans are copied to the front of the new block
    obtain ⟨hh, ht, hlt⟩ := hinv.2 hc
    have heq := reserveAmortized_eq_pos rb a hc
    have hd12 : rb.dataSliceLengths.1 + rb.dataSliceLengths.2 = rb.len := rfl
    have hcap2 : (rb.reserveAmortized a).cap = max (rb.cap * 2) (nextPow2 (rb.cap + a + 1)) :=
      cap_reserveAmortized rb a
    have hhead2 : (rb.reserveAmortized a).head = 0 := by rw [heq]
    have htail2 : (rb.reserveAmortized a).tail = rb.len := by rw [heq]; exact hd12
    have hbuf2 : ∀ i, (rb.reserveAmortized a).buf i =
        (if i < rb.dataSliceLengths.1 then rb.buf (rb.head + i)
         else if i < rb.dataSliceLengths.1 + rb.dataSliceLengths.2 then
           rb.buf (i - rb.dataSliceLengths.1)
         else 0) := by
      intro i
      rw [heq]
    have hlen2 : (rb.reserveAmortized a).len = rb.len := by
      rw [len_eq_if, hhead2, htail2, hcap2]
      simp
    have hinv2 : (rb.reserveAmortized a).Inv := by
      refine ⟨fun h => by omega, fun _ => ⟨by omega, by omega, by omega⟩⟩
    refine ⟨hinv2, ?_, hlen2, hhead2, htail2⟩
    rw [contents_eq_map _ hinv2, contents_eq_map rb hinv, hlen2]
    apply List.map_congr_left
    intro j hj
    rw [List.mem_range] at hj
    rw [hhead2, hcap2, hbuf2, Nat.zero_add,
      Nat.mod_eq_of_lt (show j < max (rb.cap * 2) (nextPow2 (rb.cap + a + 1)) by omega)]
    rcases Nat.lt_or_ge rb.tail rb.head with hht | hht
    · -- wrapped: dataSliceLengths = (cap - head, tail)
      have hd : rb.dataSliceLengths = (rb.cap - rb.head, rb.tail) := by
        rw [dataSliceLengths, if_neg (by omega)]
      have hn : rb.len = rb.cap - rb.head + rb.tail := by
        rw [len_eq_if, if_neg (by omega)]
      rw [hd]
      rcases Nat.lt_or_ge j (rb.cap - rb.head) with hj1 | hj1
      · rw [if_pos (by omega)]
        rw [Nat.mod_eq_of_lt (by omega)]
      · rw [if_neg (by omega), if_pos (by omega)]
        have h1 : rb.head + j = rb.cap + (j - (rb.cap - rb.head)) := by omega
        rw [h1, Nat.add_mod_left, Nat.mod_eq_of_lt (by omega)]
    · -- contiguous: dataSliceLengths = (tail - head, 0)
      have hd : rb.dataSliceLengths = (rb.tail - rb.head, 0) := by
        rw [dataSliceLengths, if_pos (by omega)]
      have hn : rb.len = rb.tail - rb.head := by
        rw [len_eq_if, if_pos (by omega)]
      rw [hd]
      rw [if_pos (by omega)]
      rw [Nat.mod_eq_of_lt (by omega)]

/-- `reserve`: invariant and contents are preserved, the length is
unchanged, and afterwards `len + amount < cap` (free space is at least
`amount + 1`, keeping the slack byte). -/
theorem reserve_spec (rb : RingBuffer) (a : Nat) (hinv : rb.Inv) :
    (rb.reserve a).Inv ∧
    (rb.reserve a).contents = rb.contents ∧
    (rb.reserve a).len = rb.len ∧
    (rb.reserve a).len + a < (rb.reserve a).cap := by
  rw [reserve]
  split
  · exact ⟨hinv, rfl, rfl, by omega⟩
  · obtain ⟨h1, h2, h3, _, _⟩ := reserveAmortized_spec rb a hinv
    have hbig := cap_le_reserveAmortized rb a
    have hle := len_le_cap rb hinv
    exact ⟨h1, h2, h3, by omega⟩

end RingBuffer

/-! ### List `getD` helpers -/

theorem getD_eq_getElem (l : List Nat) (i : Nat) (h : i < l.length) : l.getD i 0 = l[i] := by
  simp [List.getD_eq_getElem?_getD, List.getElem?_eq_getElem h]

theorem getD_take (l : List Nat) (n i : Nat) (h : i < n) : (l.take n).getD i 0 = l.getD i 0 := by
  simp [List.getD_eq_getElem?_getD, List.getElem?_take, h]

theorem getD_drop (l : List Nat) (n i : Nat) : (l.drop n).getD i 0 = l.getD (n + i) 0 := by
  simp [List.getD_eq_getElem?_getD, List.getElem?_drop]

namespace RingBuffer

theorem freeSlice2_eq (rb : RingBuffer) :
    rb.freeSliceLengths.2 = if rb.tail < rb.head then rb.head - rb.tail else rb.cap - rb.tail := by
  rw [freeSliceLengths]
  split <;> rfl

/-- The free-span copy of `extend` (after `reserve`): the invariant holds
afterwards and the logical content is exactly the old content followed by
`data`. -/
theorem extendWrite_spec (rb : RingBuffer) (data : List Nat)
    (hh : rb.head < rb.cap) (ht : rb.tail < rb.cap)
    (hfree : rb.len + data.length < rb.cap) :
    (rb.extendWrite data).Inv ∧
    (rb.extendWrite data).contents = rb.contents ++ data := by
  have hc : 0 < rb.cap := by omega
  have hinv0 : rb.Inv := ⟨fun h2 => by omega, fun _ => ⟨hh, ht, by omega⟩⟩
  have hcap2 : (rb.extendWrite data).cap = rb.cap := rfl
  have hhead2 : (rb.extendWrite data).head = rb.head := rfl
  have htail2 : (rb.extendWrite data).tail = (rb.tail + data.length) % rb.cap := rfl
  have hlen2 : (rb.extendWrite data).len = rb.len + data.length :=
    len_of_tail_advance rb _ data.length hcap2 hhead2 htail2 hh ht hfree
  have htlt : (rb.extendWrite data).tail < rb.cap := by
    rw [htail2]
    exact Nat.mod_lt _ hc
  have hinv2 : (rb.extendWrite data).Inv :=
    ⟨fun h2 => by omega, fun _ => ⟨by omega, by omega, by omega⟩⟩
  refine ⟨hinv2, ?_⟩
  have hn := len_eq_if rb
  have hfv := freeSlice2_eq rb
  have hbufeq : (rb.extendWrite data).buf =
      (if 0 < data.length - min data.length rb.freeSliceLengths.2 then
        writeList
          (if 0 < min data.length rb.freeSliceLengths.2 then
            writeList rb.buf rb.tail (data.take (min data.length rb.freeSliceLengths.2))
          else rb.buf)
          0 (data.drop (min data.length rb.freeSliceLengths.2))
      else
        (if 0 < min data.length rb.freeSliceLengths.2 then
          writeList rb.buf rb.tail (data.take (min data.length rb.freeSliceLengths.2))
        else rb.buf)) := rfl
  -- bytes of the old live region are untouched
  have hkeep : ∀ j, j < rb.len →
      (rb.extendWrite data).buf ((rb.head + j) % rb.cap) = rb.buf ((rb.head + j) % rb.cap) := by
    intro j hj
    rw [hbufeq]
    rcases Nat.lt_or_ge rb.tail rb.head with hht | hht
    · -- wrapped live region, single free span [tail, head)
      have hf2 : rb.freeSliceLengths.2 = rb.head - rb.tail := by rw [hfv, if_pos hht]
      have hnv : rb.len = rb.cap - rb.head + rb.tail := by rw [hn, if_neg (by omega)]
      have hmin : min data.length rb.freeSliceLengths.2 = data.length := by
        rw [hf2]
        omega
      rw [hmin, if_neg (by omega)]
      by_cases hL0 : 0 < data.length
      · rw [if_pos hL0, List.take_length]
        rcases Nat.lt_or_ge j (rb.cap - rb.head) with hj1 | hj1
        · rw [Nat.mod_eq_of_lt (by omega)]
          exact writeList_out _ _ _ _ (Or.inr (by omega))
        · have hp : (rb.head + j) % rb.cap = j - (rb.cap - rb.head) := by
            rw [Nat.mod_eq_sub_mod (by omega), Nat.mod_eq_of_lt (by omega)]
            omega
          rw [hp]
          exact writeList_out _ _ _ _ (Or.inl (by omega))
      · rw [if_neg hL0]
    · -- contiguous live region [head, tail)
      have hf2 : rb.freeSliceLengths.2 = rb.cap - rb.tail := by rw [hfv, if_neg (by omega)]
      have hnv : rb.len = rb.tail - rb.head := by rw [hn, if_pos (by omega)]
      have hp : (rb.head + j) % rb.cap = rb.head + j := Nat.mod_eq_of_lt (by omega)
      rw [hp]
      have hdrop : (data.drop (min data.length rb.freeSliceLengths.2)).length
          = data.length - min data.length rb.freeSliceLengths.2 := List.length_drop _ _
      have hinner :
          (if 0 < min data.length rb.freeSliceLengths.2 then
            writeList rb.buf rb.tail (data.take (min data.length rb.freeSliceLengths.2))
          else rb.buf) (rb.head + j) = rb.buf (rb.head + j) := by
        by_cases hF : 0 < min data.length rb.freeSliceLengths.2
        · rw [if_pos hF]
          exact writeList_out _ _ _ _ (Or.inl (by omega))
        · rw [if_neg hF]
      by_cases hF2 : 0 < data.length - min data.length rb.freeSliceLengths.2
      · rw [if_pos hF2]
        rw [writeList_out _ _ _ _ (Or.inr (by rw [hdrop, hf2]; omega))]
        exact hinner
      · rw [if_neg hF2]
        exact hinner
  -- the appended bytes are exactly `data`
  have hnew : ∀ i, i < data.length →
      (rb.extendWrite data).buf ((rb.tail + i) % rb.cap) = data.getD i 0 := by
    intro i hi
    rw [hbufeq]
    rcases Nat.lt_or_ge rb.tail rb.head with hht | hht
    · -- single free span [tail, head): the whole of `data` goes at tail
      have hf2 : rb.freeSliceLengths.2 = rb.head - rb.tail := by rw [hfv, if_pos hht]
      have hnv : rb.len = rb.cap - rb.head + rb.tail := by rw [hn, if_neg (by omega)]
      have hmin : min data.length rb.freeSliceLengths.2 = data.length := by
        rw [hf2]
        omega
      rw [hmin, if_neg (by omega), if_pos (by omega), List.take_length]
      rw [Nat.mod_eq_of_lt (by omega)]
      rw [writeList_in _ _ _ _ (by omega) (by omega)]
      have h3 : rb.tail + i - rb.tail = i := by omega
      rw [h3]
    · -- two free spans [tail, cap) and [0, head)
      have hf2 : rb.freeSliceLengths.2 = rb.cap - rb.tail := by rw [hfv, if_neg (by omega)]
      have hnv : rb.len = rb.tail - rb.head := by rw [hn, if_pos (by omega)]
      have htake : (data.take (min data.length rb.freeSliceLengths.2)).length
          = min data.length rb.freeSliceLengths.2 := by
        rw [List.length_take]
        omega
      have hdrop : (data.drop (min data.length rb.freeSliceLengths.2)).length
          = data.length - min data.length rb.freeSliceLengths.2 := List.length_drop _ _
      rcases Nat.lt_or_ge i (min data.length rb.freeSliceLengths.2) with hiF | hiF
      · -- lands in the span after tail
        have hp : (rb.tail + i) % rb.cap = rb.tail + i :=
          Nat.mod_eq_of_lt (by rw [hf2] at hiF; omega)
        rw [hp]
        have hinner :
            (if 0 < min data.length rb.freeSliceLengths.2 then
              writeList rb.buf rb.tail (data.take (min data.length rb.freeSliceLengths.2))
            else rb.buf) (rb.tail + i) = data.getD i 0 := by
          rw [if_pos (by omega)]
          rw [writeList_in _ _ _ _ (by omega) (by rw [htake]; omega)]
          have h3 : rb.tail + i - rb.tail = i := by omega
          rw [h3, getD_take _ _ _ hiF]
        by_cases hF2 : 0 < data.length - min data.length rb.freeSliceLengths.2
        · rw [if_pos hF2]
          rw [writeList_out _ _ _ _ (Or.inr (by rw [hdrop, hf2]; omega))]
          exact hinner
        · rw [if_neg hF2]
          exact hinner
      · -- wraps to the span at offset 0
        have hFL : min data.length rb.freeSliceLengths.2 = rb.cap - rb.tail := by
          rw [hf2]
          omega
        have hp : (rb.tail + i) % rb.cap = i - (rb.cap - rb.tail) := by
          rw [Nat.mod_eq_sub_mod (by rw [hFL] at hiF; omega)]
          rw [Nat.mod_eq_of_lt (by omega)]
          omega
        rw [hp]
        rw [if_pos (by omega)]
        rw [writeList_in _ _ _ _ (by omega) (by rw [hdrop, hFL]; omega)]
        rw [Nat.sub_zero, getD_drop]
        have h4 : min data.length rb.freeSliceLengths.2 + (i - (rb.cap - rb.tail)) = i := by
          rw [hFL]
          omega
        rw [h4]
  -- assemble the contents equation
  rw [contents_eq_map _ hinv2, hlen2, hhead2, hcap2]
  apply List.ext_getElem
  · simp [List.length_map, List.length_range, List.length_append, length_contents]
  · intro k hk1 hk2
    simp only [List.length_map, List.length_range] at hk1
    rw [List.getElem_map, List.getElem_range]
    have hlc := length_contents rb
    rcases Nat.lt_or_ge k rb.len with hkn | hkn
    · rw [List.getElem_append_left (by omega)]
      rw [contents_getElem rb hinv0 k (by omega)]
      exact hkeep k hkn
    · have hsplit : (rb.head + k) % rb.cap = (rb.tail + (k - rb.len)) % rb.cap := by
        have hx : rb.head + k = (rb.head + rb.len) + (k - rb.len) := by omega
        rw [hx, ← Nat.mod_add_mod, head_add_len rb hh ht]
      rw [List.getElem_append_right (by omega)]
      rw [← getD_eq_getElem data (k - rb.contents.length) (by
        simp only [List.length_append] at hk2
        omega)]
      rw [hlc, hsplit]
      exact hnew (k - rb.len) (by omega)

/-- `extend` appends `data` to the logical content and preserves the invariant. -/
theorem extend_spec (rb0 : RingBuffer) (data : List Nat) (hinv : rb0.Inv) :
    (rb0.extend data).Inv ∧ (rb0.extend data).contents = rb0.contents ++ data := by
  obtain ⟨hinv1, hcont1, hlen1, hfree1⟩ := reserve_spec rb0 data.length hinv
  have hc1 : 0 < (rb0.reserve data.length).cap := by omega
  obtain ⟨hh1, ht1, _⟩ := hinv1.2 hc1
  obtain ⟨h1, h2⟩ := extendWrite_spec (rb0.reserve data.length) data hh1 ht1 (by omega)
  refine ⟨h1, ?_⟩
  rw [show rb0.extend data = (rb0.reserve data.length).extendWrite data from rfl, h2, hcont1]

end RingBuffer

namespace RingBuffer

/-- `drain` (when it does not panic) drops the `amount` oldest bytes. -/
theorem drain_spec (rb : RingBuffer) (a : Nat) (rb2 : RingBuffer) (hinv : rb.Inv)
    (h : rb.drain a = some rb2) :
    rb2.Inv ∧ rb2.contents = rb.contents.drop a := by
  rw [drain] at h
  by_cases hc : rb.cap = 0
  · rw [if_pos hc] at h
    exact absurd h (by simp)
  · rw [if_neg hc] at h
    injection h with h
    obtain ⟨hh, ht, hlen⟩ := hinv.2 (by omega)
    have hcap2 : rb2.cap = rb.cap := by rw [← h]
    have htail2 : rb2.tail = rb.tail := by rw [← h]
    have hbuf2 : rb2.buf = rb.buf := by rw [← h]
    have hhead2 : rb2.head = (rb.head + min a rb.len) % rb.cap := by rw [← h]
    have hlen2 : rb2.len = rb.len - min a rb.len := by
      rw [len_eq_if, hcap2, htail2, hhead2]
      exact head_advance_mod rb.cap rb.head rb.tail (min a rb.len) rb.len hh ht
        (len_eq_if rb) (by omega)
    have hhlt : rb2.head < rb.cap := by
      rw [hhead2]
      exact Nat.mod_lt _ (by omega)
    have hinv2 : rb2.Inv := ⟨fun h0 => by omega, fun _ => ⟨by omega, by omega, by omega⟩⟩
    refine ⟨hinv2, ?_⟩
    rw [contents_eq_map rb2 hinv2, contents_eq_map rb hinv]
    apply List.ext_getElem
    · simp only [List.length_map, List.length_range, List.length_drop]
      omega
    · intro k hk1 hk2
      simp only [List.length_map, List.length_range] at hk1
      rw [List.getElem_map, List.getElem_range, List.getElem_drop, List.getElem_map,
        List.getElem_range]
      rw [hbuf2, hhead2, hcap2]
      have hm : min a rb.len = a := by omega
      have harg : rb.head + a + k = rb.head + (a + k) := by omega
      rw [hm, Nat.mod_add_mod, harg]

/-- `clear` resets both cursors, keeps storage and capacity, empties the
buffer, and re-establishes the invariant unconditionally. -/
theorem clear_spec (rb : RingBuffer) :
    rb.clear.head = 0 ∧ rb.clear.tail = 0 ∧ rb.clear.cap = rb.cap ∧
    rb.clear.buf = rb.buf ∧ rb.clear.len = 0 ∧ rb.clear.Inv := by
  have hlen : rb.clear.len = 0 := by
    rw [len_eq_if]
    simp [clear]
  refine ⟨rfl, rfl, rfl, rfl, hlen, ⟨fun _ => ⟨rfl, rfl⟩, fun hpos => ⟨?_, ?_, ?_⟩⟩⟩
  · show (0 : Nat) < rb.cap
    exact hpos
  · show (0 : Nat) < rb.cap
    exact hpos
  · omega

/-- Under the invariant, `is_empty` (`head == tail`) holds iff `len() = 0`. -/
theorem isEmpty_iff_len (rb : RingBuffer) (hinv : rb.Inv) :
    rb.isEmpty = true ↔ rb.len = 0 := by
  rw [isEmpty, beq_iff_eq, len_eq_if]
  rcases Nat.eq_zero_or_pos rb.cap with hc | hc
  · obtain ⟨hh, ht⟩ := hinv.1 hc
    constructor
    · intro h
      split <;> omega
    · intro _
      omega
  · obtain ⟨hh, ht, hlen⟩ := hinv.2 hc
    constructor
    · intro h
      split <;> omega
    · intro h
      split at h <;> omega

/-- On the failing path, `extend_from_within` has not touched the state:
the `Except.error` payload is the input state and the bound was violated. -/
theorem extendFromWithin_error (rb : RingBuffer) (s l : Nat) (s2 : RingBuffer)
    (h : rb.extendFromWithin s l = Except.error s2) : s2 = rb ∧ rb.len < s + l := by
  rw [extendFromWithin] at h
  by_cases hc : s + l > rb.len
  · rw [if_pos hc] at h
    injection h with h
    exact ⟨h.symm, hc⟩
  · rw [if_neg hc] at h
    exact absurd h (by simp)

/-- On the successful path, the bound held, the invariant is preserved and
exactly `l` bytes were appended (cursor arithmetic only — this holds
independently of which bytes the four-branch copy read). -/
theorem extendFromWithin_ok (rb : RingBuffer) (s l : Nat) (rb2 : RingBuffer) (hinv : rb.Inv)
    (h : rb.extendFromWithin s l = Except.ok rb2) :
    s + l ≤ rb.len ∧ rb2.Inv ∧ rb2.len = rb.len + l ∧ rb2.cap = (rb.reserve l).cap := by
  rw [extendFromWithin] at h
  by_cases hc : s + l > rb.len
  · rw [if_pos hc] at h
    exact absurd h (by simp)
  · rw [if_neg hc] at h
    injection h with h
    obtain ⟨hinv1, _, hlen1, hfree1⟩ := reserve_spec rb l hinv
    have hc1 : 0 < (rb.reserve l).cap := by omega
    obtain ⟨hh1, ht1, hn1⟩ := hinv1.2 hc1
    have hcap2 : rb2.cap = (rb.reserve l).cap := by rw [← h]; rfl
    have hhead2 : rb2.head = (rb.reserve l).head := by rw [← h]; rfl
    have htail2 : rb2.tail = ((rb.reserve l).tail + l) % (rb.reserve l).cap := by
      rw [← h]; rfl
    have hlen2 : rb2.len = (rb.reserve l).len + l :=
      len_of_tail_advance (rb.reserve l) rb2 l hcap2 hhead2 htail2 hh1 ht1 (by omega)
    have htlt : rb2.tail < (rb.reserve l).cap := by
      rw [htail2]
      exact Nat.mod_lt _ hc1
    have hinv2 : rb2.Inv := ⟨fun h0 => by omega, fun _ => ⟨by omega, by omega, by omega⟩⟩
    exact ⟨by omega, hinv2, by omega, hcap2⟩

theorem inv_new : RingBuffer.new.Inv :=
  ⟨fun _ => ⟨rfl, rfl⟩, fun h => absurd h (by decide)⟩

theorem contents_new : RingBuffer.new.contents = [] := rfl

/-- Running a trace of `extend`/`drain` calls keeps the invariant and the
logical content tracks the unbounded-queue reference model. -/
theorem run_spec (ops : List Op) : ∀ rb rb2 : RingBuffer, rb.Inv → rb.run ops = some rb2 →
    rb2.Inv ∧ rb2.contents = modelRun rb.contents ops := by
  induction ops with
  | nil =>
    intro rb rb2 hinv h
    simp only [run] at h
    injection h with h
    subst h
    exact ⟨hinv, rfl⟩
  | cons op ops ih =>
    intro rb rb2 hinv h
    cases op with
    | ext d =>
      simp only [run, applyOp] at h
      obtain ⟨hi, hc⟩ := extend_spec rb d hinv
      obtain ⟨hi2, hc2⟩ := ih (rb.extend d) rb2 hi h
      refine ⟨hi2, ?_⟩
      rw [hc2, modelRun, hc]
    | drn n =>
      simp only [run, applyOp] at h
      cases hd : rb.drain n with
      | none =>
        rw [hd] at h
        exact absurd h (by simp)
      | some rb1 =>
        rw [hd] at h
        obtain ⟨hi1, hc1⟩ := drain_spec rb n rb1 hinv hd
        obtain ⟨hi2, hc2⟩ := ih rb1 rb2 hi1 h
        refine ⟨hi2, ?_⟩
        rw [hc2, modelRun, hc1]

end RingBuffer

/-! ### Sanity: the repository's own `smoke` test, replayed on the embedding
(bytes `b"0123456789"` written as `0..9`). -/

theorem source_smoke_test_replayed :
    (((((((((RingBuffer.new.reserve 15).extend [0,1,2,3,4,5,6,7,8,9]).drain 5).bind
        (fun rb => (rb.extendFromWithin 2 3).toOption)).bind
        (fun rb => (rb.extendFromWithin 0 3).toOption)).bind
        (fun rb => (rb.extendFromWithin 0 2).toOption)).bind
        (fun rb => rb.drain 11)).map
        (fun rb => rb.extend [0,1,2,3,4,5,6,7,8,9])).bind
        (fun rb => rb.drain 11)).map
        (fun rb => (rb.extend [0,1,2,3,4,5,6,7,8,9]).asSlices)
      = some ([9,0,1,2,3], [4,5,6,7,8,9]) := by
  rfl

/-! ### The claims -/

/-- C1 (code bug): self-referential append is NOT byte-exact for every
alignment.  On the reachable state `cap = 16`, `head = 12`, `tail = 2`
with logical content `C = [21,22,23,24,25,26]` (built by extending 12
bytes, draining them, and extending 6 more so the live region wraps),
the call `extend_from_within(4, 2)` takes the `head ≥ tail`,
`head + start ≤ cap` branch and copies from physical offsets
`head + start = 16` and `17` — both `≥ cap`, i.e. a heap read past the
end of the allocation (the model reads the allocation's never-written
default `0` there).  The result is `C ++ [0,0]` instead of the required
`C ++ C[4:6] = C ++ [25,26]`. -/
theorem extendFromWithin_self_copy_out_of_bounds :
    ((RingBuffer.new.run
        [Op.ext [1,2,3,4,5,6,7,8,9,10,11,12], Op.drn 12, Op.ext [21,22,23,24,25,26]]).map
      RingBuffer.contents) = some [21,22,23,24,25,26]
    ∧ ((RingBuffer.new.run
        [Op.ext [1,2,3,4,5,6,7,8,9,10,11,12], Op.drn 12, Op.ext [21,22,23,24,25,26]]).bind
      (fun rb => (rb.extendFromWithin 4 2).toOption.map RingBuffer.contents))
      = some [21,22,23,24,25,26,0,0]
    ∧ [21,22,23,24,25,26,0,0] ≠
        [21,22,23,24,25,26] ++ List.take 2 (List.drop 4 [21,22,23,24,25,26]) :=
  ⟨rfl, rfl, by decide⟩

/-- C2: FIFO property — for any trace of `extend`/`drain` calls (drain
amounts within the current logical length) that runs without panicking,
the concatenation of the two `as_slices` spans equals the suffix of all
appended bytes not yet drained, in append order. -/
theorem run_fifo_suffix (ops : List Op) (rb2 : RingBuffer)
    (hvalid : validOps [] ops) (hrun : RingBuffer.new.run ops = some rb2) :
    rb2.asSlices.1 ++ rb2.asSlices.2 = modelRun [] ops := by
  have h := (RingBuffer.run_spec ops RingBuffer.new rb2 RingBuffer.inv_new hrun).2
  rw [RingBuffer.contents_new] at h
  exact h

theorem run_fifo_suffix_witness :
    (validOps [] [Op.ext [1,2,3], Op.drn 1, Op.ext [4,5]]
      ∧ RingBuffer.new.run [Op.ext [1,2,3], Op.drn 1, Op.ext [4,5]] =
        some ((RingBuffer.new.run [Op.ext [1,2,3], Op.drn 1, Op.ext [4,5]]).getD RingBuffer.new))
    ∧ ((RingBuffer.new.run [Op.ext [1,2,3], Op.drn 1, Op.ext [4,5]]).getD
        RingBuffer.new).asSlices.1
      ++ ((RingBuffer.new.run [Op.ext [1,2,3], Op.drn 1, Op.ext [4,5]]).getD
        RingBuffer.new).asSlices.2
      = modelRun [] [Op.ext [1,2,3], Op.drn 1, Op.ext [4,5]] :=
  ⟨⟨by simp [validOps], rfl⟩,
    run_fifo_suffix [Op.ext [1,2,3], Op.drn 1, Op.ext [4,5]]
      ((RingBuffer.new.run [Op.ext [1,2,3], Op.drn 1, Op.ext [4,5]]).getD RingBuffer.new)
      (by simp [validOps]) rfl⟩

/-- C3: the cursor invariant (`cap > 0 → head < cap ∧ tail < cap ∧
len < cap`, one byte of slack so full is never confused with empty;
`cap = 0 → head = tail = 0`) holds for `new` and is preserved by
`reserve`, `extend`, `extend_from_within` (success path), `drain`
(success path) and `clear`; consequently `is_empty()` holds iff
`len() = 0`. -/
theorem operations_preserve_inv (rb : RingBuffer) (hinv : rb.Inv) :
    RingBuffer.new.Inv
    ∧ (∀ a, (rb.reserve a).Inv)
    ∧ (∀ d, (rb.extend d).Inv)
    ∧ (∀ s l rb2, rb.extendFromWithin s l = Except.ok rb2 → rb2.Inv)
    ∧ (∀ n rb2, rb.drain n = some rb2 → rb2.Inv)
    ∧ rb.clear.Inv
    ∧ (rb.isEmpty = true ↔ rb.len = 0) :=
  ⟨RingBuffer.inv_new, fun a => (RingBuffer.reserve_spec rb a hinv).1,
    fun d => (RingBuffer.extend_spec rb d hinv).1,
    fun s l rb2 h => (RingBuffer.extendFromWithin_ok rb s l rb2 hinv h).2.1,
    fun n rb2 h => (RingBuffer.drain_spec rb n rb2 hinv h).1,
    (RingBuffer.clear_spec rb).2.2.2.2.2,
    RingBuffer.isEmpty_iff_len rb hinv⟩

theorem operations_preserve_inv_witness :
    RingBuffer.new.Inv
    ∧ (RingBuffer.new.Inv
      ∧ (∀ a, (RingBuffer.new.reserve a).Inv)
      ∧ (∀ d, (RingBuffer.new.extend d).Inv)
      ∧ (∀ s l rb2, RingBuffer.new.extendFromWithin s l = Except.ok rb2 → rb2.Inv)
      ∧ (∀ n rb2, RingBuffer.new.drain n = some rb2 → rb2.Inv)
      ∧ RingBuffer.new.clear.Inv
      ∧ (RingBuffer.new.isEmpty = true ↔ RingBuffer.new.len = 0)) :=
  ⟨RingBuffer.inv_new, operations_preserve_inv RingBuffer.new RingBuffer.inv_new⟩

/-- C4: whenever `reserve(amount)` decides to grow (free space not
already sufficient), the new capacity is
`max(cap * 2, next_power_of_two(cap + amount + 1))`.  (The adjacent
lemmas `le_nextPow2`, `nextPow2_isPow2`, `nextPow2_le_pow2` pin down
that `nextPow2` is exactly the round-up-to-a-power-of-two function.) -/
theorem reserve_growth_policy (rb : RingBuffer) (a : Nat)
    (hgrow : ¬ rb.cap - rb.len > a) :
    (rb.reserve a).cap = max (rb.cap * 2) (nextPow2 (rb.cap + a + 1)) := by
  rw [RingBuffer.reserve, if_neg hgrow, RingBuffer.cap_reserveAmortized]

theorem reserve_growth_policy_witness :
    ¬ RingBuffer.new.cap - RingBuffer.new.len > 0
    ∧ (RingBuffer.new.reserve 0).cap
      = max (RingBuffer.new.cap * 2) (nextPow2 (RingBuffer.new.cap + 0 + 1)) :=
  ⟨by decide, reserve_growth_policy RingBuffer.new 0 (by decide)⟩

/-- C5: after `reserve(amount)` the free space `cap - len()` is at least
`amount + 1` (usable space plus the slack byte), for every state
satisfying the invariant, including `amount = 0` and `cap = 0`; and when
free space was already sufficient (`cap - len() > amount`) the call is a
no-op leaving the whole state unchanged. -/
theorem reserve_postcondition (rb : RingBuffer) (a : Nat) (hinv : rb.Inv) :
    a + 1 ≤ (rb.reserve a).cap - (rb.reserve a).len
    ∧ (rb.cap - rb.len > a → rb.reserve a = rb) := by
  obtain ⟨_, _, _, hfree⟩ := RingBuffer.reserve_spec rb a hinv
  refine ⟨by omega, fun h => ?_⟩
  rw [RingBuffer.reserve, if_pos h]

theorem reserve_postcondition_witness :
    RingBuffer.new.Inv
    ∧ (0 + 1 ≤ (RingBuffer.new.reserve 0).cap - (RingBuffer.new.reserve 0).len
      ∧ (RingBuffer.new.cap - RingBuffer.new.len > 0 → RingBuffer.new.reserve 0 = RingBuffer.new)) :=
  ⟨RingBuffer.inv_new, reserve_postcondition RingBuffer.new 0 RingBuffer.inv_new⟩

/-- C6: a growing `reserve` (also when triggered implicitly, since
`extend` and `extend_from_within` call this very `reserve` first) keeps
the read-view concatenation unchanged and relocates the live region to
physical offset 0: afterwards `head = 0` and `tail =` the pre-growth
logical length. -/
theorem reserve_growth_preserves_contents (rb : RingBuffer) (a : Nat) (hinv : rb.Inv)
    (hgrow : ¬ rb.cap - rb.len > a) :
    (rb.reserve a).contents = rb.contents
    ∧ (rb.reserve a).head = 0
    ∧ (rb.reserve a).tail = rb.len := by
  rw [RingBuffer.reserve, if_neg hgrow]
  obtain ⟨_, hcont, _, hhead, htail⟩ := RingBuffer.reserveAmortized_spec rb a hinv
  exact ⟨hcont, hhead, htail⟩

theorem reserve_growth_preserves_contents_witness :
    ((RingBuffer.new.extend [5,6,7]).Inv
      ∧ ¬ (RingBuffer.new.extend [5,6,7]).cap - (RingBuffer.new.extend [5,6,7]).len > 2)
    ∧ (((RingBuffer.new.extend [5,6,7]).reserve 2).contents
        = (RingBuffer.new.extend [5,6,7]).contents
      ∧ ((RingBuffer.new.extend [5,6,7]).reserve 2).head = 0
      ∧ ((RingBuffer.new.extend [5,6,7]).reserve 2).tail = (RingBuffer.new.extend [5,6,7]).len) :=
  ⟨⟨(RingBuffer.extend_spec RingBuffer.new [5,6,7] RingBuffer.inv_new).1, by decide⟩,
    reserve_growth_preserves_contents (RingBuffer.new.extend [5,6,7]) 2
      (RingBuffer.extend_spec RingBuffer.new [5,6,7] RingBuffer.inv_new).1 (by decide)⟩

/-- C7: `extend_from_within(start, len)` fails exactly when
`start + len > len()`; on the failing path the error carries the
untouched input state (the bounds check precedes every mutation); and on
success exactly `len` bytes are appended — never a silently clamped or
truncated number. -/
theorem extendFromWithin_fail_fast (rb : RingBuffer) (s l : Nat) (hinv : rb.Inv) :
    (∀ s2, rb.extendFromWithin s l = Except.error s2 → s2 = rb ∧ rb.len < s + l)
    ∧ (rb.len < s + l → rb.extendFromWithin s l = Except.error rb)
    ∧ (∀ rb2, rb.extendFromWithin s l = Except.ok rb2 →
        s + l ≤ rb.len ∧ rb2.len = rb.len + l) := by
  refine ⟨fun s2 h => RingBuffer.extendFromWithin_error rb s l s2 h, fun h => ?_,
    fun rb2 h => ?_⟩
  · rw [RingBuffer.extendFromWithin, if_pos (by omega)]
  · obtain ⟨h1, _, h3, _⟩ := RingBuffer.extendFromWithin_ok rb s l rb2 hinv h
    exact ⟨h1, h3⟩

theorem extendFromWithin_fail_fast_witness :
    (RingBuffer.new.extend [1,2,3]).Inv
    ∧ ((∀ s2, (RingBuffer.new.extend [1,2,3]).extendFromWithin 1 2 = Except.error s2 →
          s2 = RingBuffer.new.extend [1,2,3] ∧ (RingBuffer.new.extend [1,2,3]).len < 1 + 2)
      ∧ ((RingBuffer.new.extend [1,2,3]).len < 1 + 2 →
          (RingBuffer.new.extend [1,2,3]).extendFromWithin 1 2
            = Except.error (RingBuffer.new.extend [1,2,3]))
      ∧ (∀ rb2, (RingBuffer.new.extend [1,2,3]).extendFromWithin 1 2 = Except.ok rb2 →
          1 + 2 ≤ (RingBuffer.new.extend [1,2,3]).len
          ∧ rb2.len = (RingBuffer.new.extend [1,2,3]).len + 2)) :=
  ⟨(RingBuffer.extend_spec RingBuffer.new [1,2,3] RingBuffer.inv_new).1,
    extendFromWithin_fail_fast (RingBuffer.new.extend [1,2,3]) 1 2
      (RingBuffer.extend_spec RingBuffer.new [1,2,3] RingBuffer.inv_new).1⟩

/-- C8 counterexample: the claim quantifies over every buffer state, but
on the freshly constructed capacity-0 buffer `n = 1 > len() = 0` makes
`drain(1)` evaluate `(head + 0) % 0` and panic (modelled `none`) instead
of "drains everything, no error". -/
theorem drain_oversized_cap_zero_counterexample :
    RingBuffer.new.len < 1 ∧ RingBuffer.new.drain 1 = none :=
  ⟨by decide, rfl⟩

/-- C8 (amended): for every state with `cap > 0` (any state that has
ever been written), `drain(n)` with `n > len()` behaves identically to
`drain(len())`, drains everything (the buffer is left empty with
unchanged capacity), and raises no error.  On the capacity-0 buffer both
calls panic instead (see the counterexample and C10). -/
theorem drain_oversized_amended (rb : RingBuffer) (n : Nat) (hinv : rb.Inv)
    (hc : 0 < rb.cap) (hn : rb.len < n) :
    rb.drain n = rb.drain rb.len
    ∧ (∀ rb2, rb.drain n = some rb2 →
        rb2.len = 0 ∧ rb2.cap = rb.cap ∧ rb2.isEmpty = true)
    ∧ (rb.drain n).isSome = true := by
  have hmin1 : min n rb.len = rb.len := by omega
  have hmin2 : min rb.len rb.len = rb.len := by omega
  refine ⟨by rw [RingBuffer.drain, RingBuffer.drain, hmin1, hmin2], fun rb2 h => ?_, ?_⟩
  · obtain ⟨hinv2, hcont⟩ := RingBuffer.drain_spec rb n rb2 hinv h
    have hlen0 : rb2.len = 0 := by
      rw [← RingBuffer.length_contents, hcont, List.length_drop,
        RingBuffer.length_contents]
      omega
    have hcap2 : rb2.cap = rb.cap := by
      rw [RingBuffer.drain, if_neg (by omega)] at h
      injection h with h
      rw [← h]
    refine ⟨hlen0, hcap2, ?_⟩
    rw [RingBuffer.isEmpty_iff_len rb2 hinv2]
    exact hlen0
  · rw [RingBuffer.drain, if_neg (by omega)]
    rfl

theorem drain_oversized_amended_witness :
    ((RingBuffer.new.extend [1,2]).Inv ∧ 0 < (RingBuffer.new.extend [1,2]).cap
      ∧ (RingBuffer.new.extend [1,2]).len < 5)
    ∧ ((RingBuffer.new.extend [1,2]).drain 5
        = (RingBuffer.new.extend [1,2]).drain (RingBuffer.new.extend [1,2]).len
      ∧ (∀ rb2, (RingBuffer.new.extend [1,2]).drain 5 = some rb2 →
          rb2.len = 0 ∧ rb2.cap = (RingBuffer.new.extend [1,2]).cap ∧ rb2.isEmpty = true)
      ∧ ((RingBuffer.new.extend [1,2]).drain 5).isSome = true) :=
  ⟨⟨(RingBuffer.extend_spec RingBuffer.new [1,2] RingBuffer.inv_new).1, by decide, by decide⟩,
    drain_oversized_amended (RingBuffer.new.extend [1,2]) 5
      (RingBuffer.extend_spec RingBuffer.new [1,2] RingBuffer.inv_new).1
      (by decide) (by decide)⟩

/-- C9 counterexample: `clear()` is not equivalent to `drain(len())` for
every buffer state.  (i) On the capacity-0 buffer `clear()` succeeds and
leaves it empty while `drain(len()) = drain(0)` panics (`% 0`).  (ii) On
the state reached by `extend([1])` (cap 2, head 0, tail 1), `drain(len())`
leaves `head = 1` whereas `clear()` resets `head = 0` — the resulting
states differ. -/
theorem clear_drain_counterexample :
    (RingBuffer.new.drain RingBuffer.new.len = none
      ∧ RingBuffer.new.clear.len = 0)
    ∧ ((RingBuffer.new.extend [1]).drain
        (RingBuffer.new.extend [1]).len).map RingBuffer.head = some 1
    ∧ (RingBuffer.new.extend [1]).clear.head = 0 :=
  ⟨⟨rfl, rfl⟩, rfl, rfl⟩

/-- C9 (amended): for every state with `cap > 0`, `clear()` and
`drain(len())` are equivalent at the level of the logical buffer — both
succeed, empty the buffer, and keep capacity and stored bytes unchanged —
but only `clear()` resets both cursors to 0; `drain(len())` instead
leaves `head = tail =` the old `tail`.  (On capacity-0 states `clear()`
still succeeds while `drain` panics.) -/
theorem clear_drain_amended (rb : RingBuffer) (hinv : rb.Inv) (hc : 0 < rb.cap) :
    (∀ rb2, rb.drain rb.len = some rb2 →
      rb2.len = 0 ∧ rb2.cap = rb.cap ∧ rb2.buf = rb.buf
      ∧ rb2.head = rb.tail ∧ rb2.tail = rb.tail)
    ∧ (rb.drain rb.len).isSome = true
    ∧ rb.clear.len = 0 ∧ rb.clear.cap = rb.cap ∧ rb.clear.buf = rb.buf
    ∧ rb.clear.head = 0 ∧ rb.clear.tail = 0 := by
  obtain ⟨hh, ht, hlen⟩ := hinv.2 hc
  refine ⟨fun rb2 h => ?_, ?_, (RingBuffer.clear_spec rb).2.2.2.2.1, rfl, rfl, rfl, rfl⟩
  · rw [RingBuffer.drain, if_neg (by omega)] at h
    injection h with h
    have hbuf2 : rb2.buf = rb.buf := by rw [← h]
    have hcap2 : rb2.cap = rb.cap := by rw [← h]
    have htail2 : rb2.tail = rb.tail := by rw [← h]
    have hhead2 : rb2.head = rb.tail := by
      rw [← h]
      show (rb.head + min rb.len rb.len) % rb.cap = rb.tail
      rw [Nat.min_self]
      exact RingBuffer.head_add_len rb hh ht
    have hlen2 : rb2.len = 0 := by
      rw [RingBuffer.len_eq_if, hhead2, htail2]
      simp
    exact ⟨hlen2, hcap2, hbuf2, hhead2, htail2⟩
  · rw [RingBuffer.drain, if_neg (by omega)]
    rfl

theorem clear_drain_amended_witness :
    ((RingBuffer.new.extend [1,2]).Inv ∧ 0 < (RingBuffer.new.extend [1,2]).cap)
    ∧ ((∀ rb2, (RingBuffer.new.extend [1,2]).drain (RingBuffer.new.extend [1,2]).len = some rb2 →
        rb2.len = 0 ∧ rb2.cap = (RingBuffer.new.extend [1,2]).cap
        ∧ rb2.buf = (RingBuffer.new.extend [1,2]).buf
        ∧ rb2.head = (RingBuffer.new.extend [1,2]).tail
        ∧ rb2.tail = (RingBuffer.new.extend [1,2]).tail)
      ∧ ((RingBuffer.new.extend [1,2]).drain (RingBuffer.new.extend [1,2]).len).isSome = true
      ∧ (RingBuffer.new.extend [1,2]).clear.len = 0
      ∧ (RingBuffer.new.extend [1,2]).clear.cap = (RingBuffer.new.extend [1,2]).cap
      ∧ (RingBuffer.new.extend [1,2]).clear.buf = (RingBuffer.new.extend [1,2]).buf
      ∧ (RingBuffer.new.extend [1,2]).clear.head = 0
      ∧ (RingBuffer.new.extend [1,2]).clear.tail = 0) :=
  ⟨⟨(RingBuffer.extend_spec RingBuffer.new [1,2] RingBuffer.inv_new).1, by decide⟩,
    clear_drain_amended (RingBuffer.new.extend [1,2])
      (RingBuffer.extend_spec RingBuffer.new [1,2] RingBuffer.inv_new).1 (by decide)⟩

/-- C10: `drain` is total only when `cap > 0`.  On a capacity-0 buffer
(freshly constructed, never written) `drain(n)` evaluates
`(head + min(n, 0)) % 0` — remainder by zero — and panics (modelled
`none`) for every `n`, including `n = 0`; `clear()` on the same state
succeeds and leaves an empty buffer with unchanged capacity. -/
theorem drain_panics_on_cap_zero (rb : RingBuffer) (n : Nat) (hc : rb.cap = 0) :
    rb.drain n = none
    ∧ rb.clear.head = 0 ∧ rb.clear.tail = 0 ∧ rb.clear.cap = rb.cap
    ∧ rb.clear.len = 0 :=
  ⟨by rw [RingBuffer.drain, if_pos hc], rfl, rfl, rfl,
    (RingBuffer.clear_spec rb).2.2.2.2.1⟩

theorem drain_panics_on_cap_zero_witness :
    RingBuffer.new.cap = 0
    ∧ (RingBuffer.new.drain 0 = none
      ∧ RingBuffer.new.clear.head = 0 ∧ RingBuffer.new.clear.tail = 0
      ∧ RingBuffer.new.clear.cap = RingBuffer.new.cap
      ∧ RingBuffer.new.clear.len = 0) :=
  ⟨rfl, drain_panics_on_cap_zero RingBuffer.new 0 rfl⟩
